import Mathlib

/-!
# Verification of the DFSM.js automaton library

Shallow embedding of `src/DFSM.ts` (class `DFSM<Q, Σ>`): construction-time
validation and completion of the transition table, sink-node detection, and
the `read`/`test` execution engine.  States and alphabet symbols are JS
strings; JS objects keyed by strings are modelled as association lists in
key-insertion order; thrown JS template strings are modelled as the exact
message strings; stateful in-place updates of the transition table are made
explicit by returning the updated table.
-/

namespace DFSMjs

/-- States and symbols are JS strings. -/
abbrev St := String

/-- Walk of a list keeping the elements not yet seen, in order; `seen`
accumulates the elements already kept. -/
def dedupFirstAux (seen : List St) : List St → List St
  | [] => []
  | x :: xs => if x ∈ seen then dedupFirstAux seen xs else x :: dedupFirstAux (x :: seen) xs

/-- `Array.from(new Set(l))`: deduplicate keeping first occurrences, in order. -/
def dedupFirst (l : List St) : List St :=
  dedupFirstAux [] l

/-- A per-state map `Symbol → State`, as a JS object: assoc list in key order. -/
abbrev TMap := List (St × St)

/-- A transition-table entry: a full per-symbol map, or the shorthand
`[partial map, default state]` two-element array of the source. -/
inductive TEntry where
  | full (m : TMap)
  | pair (m : TMap) (d : St)
deriving DecidableEq, Repr

/-- The caller-supplied transition table `δ`, a JS object keyed by states. -/
abbrev Table := List (St × TEntry)

/-- JS property lookup `m[k]` on a per-state map (objects have unique keys,
so first match is the value). -/
def lookupm : TMap → St → Option St
  | [], _ => none
  | (a, b) :: rest, k => if a = k then some b else lookupm rest k

/-- JS property lookup `δ[q]` on the transition table. -/
def lookupT : Table → St → Option TEntry
  | [], _ => none
  | (a, b) :: rest, k => if a = k then some b else lookupT rest k

/-- Message of `throw` in `validate_char`. -/
def symbol_err (c : St) : String :=
  "The symbol " ++ c ++ " is not part of the Σ!"

/-- Message of `throw` in `validate_state`. -/
def state_err (s : St) : String :=
  "The state \"" ++ s ++ "\" is not part of the Q!"

/-- Message of the missing-state `throw` in `#δ_final_check`. -/
def missing_state_err (q : St) : String :=
  "δ is incomplete: δ[\"" ++ q ++ "\"] is missing from the FSM transition table!"

/-- Message of the missing-transition `throw` in `#δ_final_check`. -/
def missing_trans_err (q a : St) : String :=
  "δ is incomplete: δ[\"" ++ q ++ "\"][\"" ++ a ++ "\"] is missing from the FSM transition table!"

/-- Message of the invalid-target `throw` in `#δ_final_check`. -/
def ambiguous_err (q a n : St) : String :=
  "δ is ambiguous: δ[\"" ++ q ++ "\"][\"" ++ a ++ "\"] points to an invalid state, because \"" ++ n ++ "\" doesn't belong to the FSM!"

/-- Message of the non-object-entry `throw` in `complete_δ`. -/
def malformed_err (q : St) : String :=
  "δ[" ++ q ++ "] points to an invalid entry!"

/-- `validate_char`: linear scan of `Σ`, throw if absent. -/
def validate_char (Sig : List St) (c : St) : Except String Unit :=
  if c ∈ Sig then .ok () else .error (symbol_err c)

/-- `validate_state`: linear scan of `Q`, throw if absent. -/
def validate_state (Q : List St) (s : St) : Except String Unit :=
  if s ∈ Q then .ok () else .error (state_err s)

/-- The `.map(v => { this.validate_state(v); return v })` pattern: validate a
list of states in order, failing at the first one not in `Q`. -/
def validate_states (Q : List St) : List St → Except String Unit
  | [] => .ok ()
  | s :: rest =>
    match validate_state Q s with
    | .error e => .error e
    | .ok _ => validate_states Q rest

/-- `validate_input`: `string.split("")` then validate every character.
The input is taken already character-split (each element a 1-char string). -/
def validate_input (Sig : List St) : List St → Except String Unit
  | [] => .ok ()
  | c :: rest =>
    match validate_char Sig c with
    | .error e => .error e
    | .ok _ => validate_input Sig rest

/-- The key/value validation pass of `complete_state_transitions`: for each
entry of the partial map, in key order, validate the key against `Σ` and the
value against `Q`. -/
def validate_pairs (Q Sig : List St) : TMap → Except String Unit
  | [] => .ok ()
  | (k, v) :: rest =>
    match validate_char Sig k with
    | .error e => .error e
    | .ok _ =>
      match validate_state Q v with
      | .error e => .error e
      | .ok _ => validate_pairs Q Sig rest

/-- The default-fill loop of `complete_state_transitions`: for each `a ∈ Σ`
whose key is not among the provided inputs, assign `a → d` (new keys are
appended in `Σ` order, as JS property creation does). -/
def fill_defaults (Sig : List St) (P : TMap) (d : St) : TMap :=
  (Sig.filter (fun a => ¬ (P.map Prod.fst).contains a)).map (fun a => (a, d))

/-- `complete_state_transitions`: validate the default state, validate every
provided key/value, then extend the provided map with the default fill.  In
the source this mutates `state_transitions` in place; here the updated map is
returned. -/
def complete_state_transitions (Q Sig : List St) (P : TMap) (d : St) :
    Except String TMap :=
  match validate_state Q d with
  | .error e => .error e
  | .ok _ =>
    match validate_pairs Q Sig P with
    | .error e => .error e
    | .ok _ => .ok (P ++ fill_defaults Sig P d)

/-- The per-entry loop of `complete_δ`: walk the provided entries in key
order; a shorthand pair is completed and written back over its entry
(`δ[q] = transitions`), a full map is left as is.  With the `TEntry` type
every entry is an object, so the `typeof t!=="object"` throw is unreachable
and omitted. -/
def complete_entries (Q Sig : List St) : Table → Except String Table
  | [] => .ok []
  | (q, TEntry.full m) :: rest =>
    match complete_entries Q Sig rest with
    | .error e => .error e
    | .ok r => .ok ((q, TEntry.full m) :: r)
  | (q, TEntry.pair m d) :: rest =>
    match complete_state_transitions Q Sig m d with
    | .error e => .error e
    | .ok m2 =>
      match complete_entries Q Sig rest with
      | .error e => .error e
      | .ok r => .ok ((q, TEntry.full m2) :: r)

/-- `complete_δ`: validate every provided key (`Object.keys(δ)`) against `Q`,
then complete each entry.  In the source this mutates the caller's `δ` object
in place; here the table with its post-mutation contents is returned. -/
def complete_δ (Q Sig : List St) (tbl : Table) : Except String Table :=
  match validate_states Q (tbl.map Prod.fst) with
  | .error e => .error e
  | .ok _ => complete_entries Q Sig tbl

/-- Reading `transitions[a]` out of a (completed) entry.  `#δ_final_check`
and `read` run only after `complete_δ`, when every entry is a full map; on a
leftover shorthand array, string-indexing in JS yields `undefined`, i.e. a
failed lookup. -/
def entry_map : TEntry → TMap
  | .full m => m
  | .pair _ _ => []

/-- Inner loop of `#δ_final_check` for one state: scan `Σ` in order, failing
on a missing or invalid transition, and report whether every transition loops
back to `q` (the `is_sink_node` flag). -/
def check_transitions (Q : List St) (m : TMap) (q : St) : List St → Except String Bool
  | [] => .ok true
  | a :: rest =>
    match lookupm m a with
    | none => .error (missing_trans_err q a)
    | some next =>
      if next ∈ Q then
        match check_transitions Q m q rest with
        | .error e => .error e
        | .ok s => .ok (decide (next = q) && s)
      else .error (ambiguous_err q a next)

/-- `#δ_final_check`: walk `Q` in normalized order, require an entry for each
state, check every transition, and collect the sink nodes in `Q` order. -/
def δ_final_check (Q Sig : List St) (tbl : Table) : List St → Except String (List St)
  | [] => .ok []
  | q :: rest =>
    match lookupT tbl q with
    | none => .error (missing_state_err q)
    | some e =>
      match check_transitions Q (entry_map e) q Sig with
      | .error er => .error er
      | .ok isSink =>
        match δ_final_check Q Sig tbl rest with
        | .error er => .error er
        | .ok sinks => .ok (if isSink then q :: sinks else sinks)

/-- The constructed automaton: the fields of a `DFSM` instance. -/
structure DFSM where
  Q : List St
  Sig : List St
  δ : Table
  q0 : St
  F : List St
  sink_nodes : List St
  label : String
deriving DecidableEq, Repr

/-- The constructor: dedup `Q` and `Σ`, complete `δ` (mutating the caller's
table, whose final contents become the `δ` field), validate `q0`, dedup and
validate `F`, then run the final completeness check which also computes
`sink_nodes`.  A `throw` anywhere yields `.error` and no automaton. -/
def make (Q Sig : List St) (tbl : Table) (q0 : St) (F : List St) (label : String) :
    Except String DFSM :=
  match complete_δ (dedupFirst Q) (dedupFirst Sig) tbl with
  | .error e => .error e
  | .ok tbl2 =>
    match validate_state (dedupFirst Q) q0 with
    | .error e => .error e
    | .ok _ =>
      match validate_states (dedupFirst Q) (dedupFirst F) with
      | .error e => .error e
      | .ok _ =>
        match δ_final_check (dedupFirst Q) (dedupFirst Sig) tbl2 (dedupFirst Q) with
        | .error e => .error e
        | .ok sinks =>
          .ok ⟨dedupFirst Q, dedupFirst Sig, tbl2, q0, dedupFirst F, sinks, label⟩

/-- One step `this.δ[s][c]` of the execution engine. -/
def stepO (tbl : Table) (s c : St) : Option St :=
  match lookupT tbl s with
  | none => none
  | some e => lookupm (entry_map e) c

/-- The scanning loop of `read`: before consuming each character, stop if the
current state is a sink; otherwise follow `δ`.  A failed table lookup is the
JS dereference-of-`undefined` error (unreachable on a successfully
constructed automaton). -/
def run_δ (tbl : Table) (sinks : List St) : List St → St → Except String St
  | [], s => .ok s
  | c :: rest, s =>
    if s ∈ sinks then .ok s
    else
      match stepO tbl s c with
      | none => .error "TypeError: cannot read properties of undefined"
      | some s2 => run_δ tbl sinks rest s2

/-- `read`: validate the (character-split) input against `Σ`, then run the
scanning loop from `q0`. -/
def DFSM.read (M : DFSM) (input : List St) : Except String St :=
  match validate_input M.Sig input with
  | .error e => .error e
  | .ok _ => run_δ M.δ M.sink_nodes input M.q0

/-- `test`: call `read`, catch any error as `false`, else accept-membership. -/
def DFSM.test (M : DFSM) (input : List St) : Bool :=
  match M.read input with
  | .error _ => false
  | .ok s => M.F.contains s

/-- The plain left fold of `δ` over the whole input, without the sink
short-circuit.  Modelled from the spec: the reference semantics the early
exit of `read` is compared against. -/
def fold_δ (tbl : Table) : List St → St → Option St
  | [], s => some s
  | c :: rest, s =>
    match stepO tbl s c with
    | none => none
    | some s2 => fold_δ tbl rest s2

/-- Modelled from the spec: the fully-enumerated map equivalent to a
shorthand pair `(P, d)` — agreeing with `P` on `P`'s keys and mapping every
other symbol of `Σ` to `d`. -/
def spec_full_map (Sig : List St) (P : TMap) (d : St) : TMap :=
  Sig.map (fun a => (a, (lookupm P a).getD d))

/-! ## Concrete fixtures (the alternating-pattern automaton of the spec) -/

/-- States of the alternating-pattern fixture. -/
def exQ : List St := ["q0", "q1", "e"]

/-- Alphabet of the alternating-pattern fixture. -/
def exS : List St := ["0", "1"]

/-- Accept states of the alternating-pattern fixture. -/
def exF : List St := ["q0", "q1"]

/-- Fully-enumerated transition table of the alternating-pattern fixture
(`e` is a trap). -/
def exTbl : Table :=
  [("q0", .full [("0", "q1"), ("1", "e")]),
   ("q1", .full [("0", "e"), ("1", "q0")]),
   ("e",  .full [("0", "e"), ("1", "e")])]

/-- The automaton constructed from `exTbl`. -/
def exM : DFSM := ⟨exQ, exS, exTbl, "q0", exF, ["e"], ""⟩

/-- The same fixture written with shorthand pairs. -/
def shTbl : Table :=
  [("q0", .pair [("0", "q1")] "e"),
   ("q1", .pair [("1", "q0")] "e"),
   ("e",  .pair [] "e")]

/-- The automaton constructed from `shTbl`; its `δ` is the completed table,
i.e. the contents the caller's `shTbl` object holds after construction. -/
def shM : DFSM :=
  ⟨exQ, exS,
   [("q0", .full [("0", "q1"), ("1", "e")]),
    ("q1", .full [("1", "q0"), ("0", "e")]),
    ("e",  .full [("0", "e"), ("1", "e")])],
   "q0", exF, ["e"], ""⟩

/-- Fixture for the missing-entry claim: three states, but the raw table only
provides entries for `u` and `s` (in that insertion order) — `t` is the first
entry-less state in `Q`'s normalized order. -/
def mTbl : Table :=
  [("u", .full [("a", "s")]), ("s", .full [("a", "s")])]

/-- Fixture for the stray-key claim: a valid entry for `s` followed by an
entry keyed by `b`, which is not a state. -/
def kTbl : Table :=
  [("s", .full [("a", "s")]), ("b", .full [("a", "s")])]

/-! ## Basic facts about deduplication and lookups -/

theorem mem_dedupFirstAux {y : St} : ∀ {seen l : List St},
    y ∈ dedupFirstAux seen l ↔ y ∈ l ∧ y ∉ seen := by
  intro seen l
  induction l generalizing seen with
  | nil => simp [dedupFirstAux]
  | cons x xs ih =>
    by_cases hx : x ∈ seen
    · simp only [dedupFirstAux, if_pos hx, ih, List.mem_cons]
      constructor
      · rintro ⟨hy, hns⟩; exact ⟨Or.inr hy, hns⟩
      · rintro ⟨hy | hy, hns⟩
        · subst hy; exact absurd hx hns
        · exact ⟨hy, hns⟩
    · simp only [dedupFirstAux, if_neg hx, List.mem_cons, ih]
      constructor
      · rintro (rfl | ⟨hy, hns⟩)
        · exact ⟨Or.inl rfl, hx⟩
        · refine ⟨Or.inr hy, fun hc => hns ?_⟩
          simp [hc]
      · rintro ⟨rfl | hy, hns⟩
        · exact Or.inl rfl
        · by_cases hxy : y = x
          · exact Or.inl hxy
          · exact Or.inr ⟨hy, by simp [hxy, hns]⟩

theorem mem_dedupFirst {y : St} {l : List St} : y ∈ dedupFirst l ↔ y ∈ l := by
  simp [dedupFirst, mem_dedupFirstAux]

theorem nodup_dedupFirstAux : ∀ {seen l : List St}, (dedupFirstAux seen l).Nodup := by
  intro seen l
  induction l generalizing seen with
  | nil => simp [dedupFirstAux]
  | cons x xs ih =>
    by_cases hx : x ∈ seen
    · simpa [dedupFirstAux, if_pos hx] using ih
    · simp only [dedupFirstAux, if_neg hx, List.nodup_cons]
      refine ⟨fun hc => ?_, ih⟩
      exact (mem_dedupFirstAux.mp hc).2 (List.mem_cons_self _ _)

theorem nodup_dedupFirst {l : List St} : (dedupFirst l).Nodup :=
  nodup_dedupFirstAux

theorem dedupFirstAux_eq_self : ∀ {l seen : List St}, l.Nodup →
    (∀ x ∈ l, x ∉ seen) → dedupFirstAux seen l = l := by
  intro l
  induction l with
  | nil => intro seen _ _; rfl
  | cons x xs ih =>
    intro seen hnd hsn
    have hx : x ∉ seen := hsn x (List.mem_cons_self _ _)
    simp only [dedupFirstAux, if_neg hx]
    rw [ih (List.Nodup.of_cons hnd)]
    intro y hy
    simp only [List.mem_cons, not_or]
    exact ⟨fun hc => ((List.nodup_cons.mp hnd).1 (hc ▸ hy)), hsn y (List.mem_cons_of_mem _ hy)⟩

theorem dedupFirst_idem {l : List St} : dedupFirst (dedupFirst l) = dedupFirst l := by
  unfold dedupFirst
  exact dedupFirstAux_eq_self nodup_dedupFirst (by simp)

theorem lookupm_eq_none_iff {m : TMap} {k : St} :
    lookupm m k = none ↔ k ∉ m.map Prod.fst := by
  induction m with
  | nil => simp [lookupm]
  | cons p rest ih =>
    obtain ⟨a, b⟩ := p
    by_cases hk : a = k
    · subst hk; simp [lookupm]
    · simp [lookupm, hk, ih, Ne.symm hk]

theorem lookupm_isSome_iff {m : TMap} {k : St} :
    (lookupm m k).isSome ↔ k ∈ m.map Prod.fst := by
  induction m with
  | nil => simp [lookupm]
  | cons p rest ih =>
    obtain ⟨a, b⟩ := p
    by_cases hk : a = k
    · subst hk; simp [lookupm]
    · simp [lookupm, hk, ih, Ne.symm hk]

theorem lookupm_append {m1 m2 : TMap} {k : St} :
    lookupm (m1 ++ m2) k =
      match lookupm m1 k with
      | some v => some v
      | none => lookupm m2 k := by
  induction m1 with
  | nil => simp [lookupm]
  | cons p rest ih =>
    obtain ⟨a, b⟩ := p
    by_cases hk : a = k
    · subst hk; simp [lookupm]
    · simp [lookupm, hk, ih]

theorem lookupT_eq_none_iff {t : Table} {k : St} :
    lookupT t k = none ↔ k ∉ t.map Prod.fst := by
  induction t with
  | nil => simp [lookupT]
  | cons p rest ih =>
    obtain ⟨a, b⟩ := p
    by_cases hk : a = k
    · subst hk; simp [lookupT]
    · simp [lookupT, hk, ih, Ne.symm hk]

theorem lookupT_append {t1 t2 : Table} {k : St} :
    lookupT (t1 ++ t2) k =
      match lookupT t1 k with
      | some v => some v
      | none => lookupT t2 k := by
  induction t1 with
  | nil => simp [lookupT]
  | cons p rest ih =>
    obtain ⟨a, b⟩ := p
    by_cases hk : a = k
    · subst hk; simp [lookupT]
    · simp [lookupT, hk, ih]

theorem lookupm_map_fun {l : List St} {f : St → St} {k : St} :
    lookupm (l.map (fun a => (a, f a))) k = if k ∈ l then some (f k) else none := by
  induction l with
  | nil => simp [lookupm]
  | cons x xs ih =>
    by_cases hk : x = k
    · subst hk; simp [lookupm]
    · simp [lookupm, hk, ih, Ne.symm hk]

/-! ## Validation functions -/

theorem validate_state_ok_iff {Q : List St} {s : St} :
    validate_state Q s = .ok () ↔ s ∈ Q := by
  unfold validate_state
  split <;> simp_all

theorem validate_state_error {Q : List St} {s : St} (h : s ∉ Q) :
    validate_state Q s = .error (state_err s) := by
  simp [validate_state, h]

theorem validate_char_ok_iff {Sig : List St} {c : St} :
    validate_char Sig c = .ok () ↔ c ∈ Sig := by
  unfold validate_char
  split <;> simp_all

theorem validate_states_ok_iff {Q : List St} {l : List St} :
    validate_states Q l = .ok () ↔ ∀ s ∈ l, s ∈ Q := by
  induction l with
  | nil => simp [validate_states]
  | cons x xs ih =>
    unfold validate_states
    constructor
    · intro h
      rcases hv : validate_state Q x with e | u
      · rw [hv] at h; exact absurd h (by simp)
      · rw [hv] at h
        intro s hs
        rcases List.mem_cons.mp hs with rfl | hs
        · exact validate_state_ok_iff.mp hv
        · exact (ih.mp h) s hs
    · intro h
      have hx := validate_state_ok_iff.mpr (h x (List.mem_cons_self _ _))
      rw [hx]
      exact ih.mpr (fun s hs => h s (List.mem_cons_of_mem _ hs))

theorem validate_states_error_first {Q pre post : List St} {k : St}
    (hpre : ∀ p ∈ pre, p ∈ Q) (hk : k ∉ Q) :
    validate_states Q (pre ++ k :: post) = .error (state_err k) := by
  induction pre with
  | nil => simp [validate_states, validate_state_error hk]
  | cons x xs ih =>
    have hx := validate_state_ok_iff.mpr (hpre x (List.mem_cons_self _ _))
    simp only [List.cons_append, validate_states, hx]
    exact ih (fun p hp => hpre p (List.mem_cons_of_mem _ hp))

theorem validate_input_ok_iff {Sig : List St} {l : List St} :
    validate_input Sig l = .ok () ↔ ∀ c ∈ l, c ∈ Sig := by
  induction l with
  | nil => simp [validate_input]
  | cons x xs ih =>
    unfold validate_input
    constructor
    · intro h
      rcases hv : validate_char Sig x with e | u
      · rw [hv] at h; exact absurd h (by simp)
      · rw [hv] at h
        intro c hc
        rcases List.mem_cons.mp hc with rfl | hc
        · exact validate_char_ok_iff.mp hv
        · exact (ih.mp h) c hc
    · intro h
      have hx := validate_char_ok_iff.mpr (h x (List.mem_cons_self _ _))
      rw [hx]
      exact ih.mpr (fun c hc => h c (List.mem_cons_of_mem _ hc))

theorem validate_input_error_first {Sig pre post : List St} {c : St}
    (hpre : ∀ x ∈ pre, x ∈ Sig) (hc : c ∉ Sig) :
    validate_input Sig (pre ++ c :: post) = .error (symbol_err c) := by
  induction pre with
  | nil => simp [validate_input, validate_char, hc]
  | cons x xs ih =>
    have hx := validate_char_ok_iff.mpr (hpre x (List.mem_cons_self _ _))
    simp only [List.cons_append, validate_input, hx]
    exact ih (fun p hp => hpre p (List.mem_cons_of_mem _ hp))

/-! ## The final completeness check and sink detection -/

theorem check_transitions_ok_total {Q : List St} {m : TMap} {q : St} :
    ∀ {Sl : List St} {b : Bool}, check_transitions Q m q Sl = .ok b →
    ∀ a ∈ Sl, ∃ n, lookupm m a = some n ∧ n ∈ Q := by
  intro Sl
  induction Sl with
  | nil => intro b _ a ha; cases ha
  | cons x xs ih =>
    intro b h a ha
    unfold check_transitions at h
    rcases hl : lookupm m x with _ | n <;> rw [hl] at h <;> simp only at h
    · cases h
    · by_cases hn : n ∈ Q
      · rw [if_pos hn] at h
        rcases hr : check_transitions Q m q xs with e | s <;> rw [hr] at h <;> simp only at h
        · cases h
        · rcases List.mem_cons.mp ha with rfl | ha
          · exact ⟨n, hl, hn⟩
          · exact ih hr a ha
      · rw [if_neg hn] at h; cases h

theorem check_transitions_ok_true_iff {Q : List St} {m : TMap} {q : St} :
    ∀ {Sl : List St} {b : Bool}, check_transitions Q m q Sl = .ok b →
    (b = true ↔ ∀ a ∈ Sl, lookupm m a = some q) := by
  intro Sl
  induction Sl with
  | nil =>
    intro b h
    unfold check_transitions at h
    cases h
    simp
  | cons x xs ih =>
    intro b h
    unfold check_transitions at h
    rcases hl : lookupm m x with _ | n <;> rw [hl] at h <;> simp only at h
    · cases h
    · by_cases hn : n ∈ Q
      · rw [if_pos hn] at h
        rcases hr : check_transitions Q m q xs with e | s <;> rw [hr] at h <;> simp only at h
        · cases h
        · cases h
          rw [Bool.and_eq_true, decide_eq_true_iff, ih hr]
          constructor
          · rintro ⟨rfl, hrest⟩ a ha
            rcases List.mem_cons.mp ha with rfl | ha
            · exact hl
            · exact hrest a ha
          · intro hall
            refine ⟨?_, fun a ha => hall a (List.mem_cons_of_mem _ ha)⟩
            have hx := hall x (List.mem_cons_self _ _)
            rw [hl] at hx
            exact (Option.some.injEq _ _).mp hx
      · rw [if_neg hn] at h; cases h

theorem check_transitions_total_ok {Q : List St} {m : TMap} {q : St} :
    ∀ {Sl : List St}, (∀ a ∈ Sl, ∃ n, lookupm m a = some n ∧ n ∈ Q) →
    ∃ b, check_transitions Q m q Sl = .ok b := by
  intro Sl
  induction Sl with
  | nil => intro _; exact ⟨true, rfl⟩
  | cons x xs ih =>
    intro h
    obtain ⟨n, hl, hn⟩ := h x (List.mem_cons_self _ _)
    obtain ⟨s, hs⟩ := ih (fun a ha => h a (List.mem_cons_of_mem _ ha))
    refine ⟨decide (n = q) && s, ?_⟩
    unfold check_transitions
    rw [hl]
    simp only [if_pos hn, hs]

theorem check_transitions_congr {Q : List St} {m1 m2 : TMap} {q : St} :
    ∀ {Sl : List St}, (∀ a ∈ Sl, lookupm m1 a = lookupm m2 a) →
    check_transitions Q m1 q Sl = check_transitions Q m2 q Sl := by
  intro Sl
  induction Sl with
  | nil => intro _; rfl
  | cons x xs ih =>
    intro h
    unfold check_transitions
    rw [← h x (List.mem_cons_self _ _), ih (fun a ha => h a (List.mem_cons_of_mem _ ha))]

theorem final_check_ok_entry {Q Sig : List St} {tbl : Table} :
    ∀ {Qit : List St} {sinks : List St}, δ_final_check Q Sig tbl Qit = .ok sinks →
    ∀ q ∈ Qit, ∃ e, lookupT tbl q = some e ∧
      ∃ b, check_transitions Q (entry_map e) q Sig = .ok b := by
  intro Qit
  induction Qit with
  | nil => intro sinks _ q hq; cases hq
  | cons x xs ih =>
    intro sinks h q hq
    unfold δ_final_check at h
    rcases he : lookupT tbl x with _ | e <;> rw [he] at h <;> simp only at h
    · cases h
    · rcases hc : check_transitions Q (entry_map e) x Sig with er | isSink <;>
        rw [hc] at h <;> simp only at h
      · cases h
      · rcases hr : δ_final_check Q Sig tbl xs with er | sinks2 <;>
          rw [hr] at h <;> simp only at h
        · cases h
        · rcases List.mem_cons.mp hq with rfl | hq
          · exact ⟨e, he, isSink, hc⟩
          · exact ih hr q hq

theorem final_check_sinks_subset {Q Sig : List St} {tbl : Table} :
    ∀ {Qit : List St} {sinks : List St}, δ_final_check Q Sig tbl Qit = .ok sinks →
    ∀ s ∈ sinks, s ∈ Qit := by
  intro Qit
  induction Qit with
  | nil =>
    intro sinks h s hs
    unfold δ_final_check at h
    cases h
    cases hs
  | cons x xs ih =>
    intro sinks h s hs
    unfold δ_final_check at h
    rcases he : lookupT tbl x with _ | e <;> rw [he] at h <;> simp only at h
    · cases h
    · rcases hc : check_transitions Q (entry_map e) x Sig with er | isSink <;>
        rw [hc] at h <;> simp only at h
      · cases h
      · rcases hr : δ_final_check Q Sig tbl xs with er | sinks2 <;>
          rw [hr] at h <;> simp only at h
        · cases h
        · cases h
          rcases isSink with _ | _
          · simp only [Bool.false_eq_true, if_false] at hs
            exact List.mem_cons_of_mem _ (ih hr s hs)
          · simp only [if_true] at hs
            rcases List.mem_cons.mp hs with rfl | hs
            · exact List.mem_cons_self _ _
            · exact List.mem_cons_of_mem _ (ih hr s hs)

theorem final_check_mem_sinks_iff {Q Sig : List St} {tbl : Table} :
    ∀ {Qit : List St} {sinks : List St} {q : St} {e : TEntry}, Qit.Nodup →
    δ_final_check Q Sig tbl Qit = .ok sinks → q ∈ Qit → lookupT tbl q = some e →
    (q ∈ sinks ↔ check_transitions Q (entry_map e) q Sig = .ok true) := by
  intro Qit
  induction Qit with
  | nil => intro sinks q e _ _ hq; cases hq
  | cons x xs ih =>
    intro sinks q e hnd h hq hlook
    unfold δ_final_check at h
    rcases he : lookupT tbl x with _ | ex <;> rw [he] at h <;> simp only at h
    · cases h
    · rcases hc : check_transitions Q (entry_map ex) x Sig with er | isSink <;>
        rw [hc] at h <;> simp only at h
      · cases h
      · rcases hr : δ_final_check Q Sig tbl xs with er | sinks2 <;>
          rw [hr] at h <;> simp only at h
        · cases h
        · cases h
          rcases List.mem_cons.mp hq with rfl | hq
          · have hex : ex = e := by rw [he] at hlook; exact (Option.some.injEq _ _).mp hlook
            subst hex
            have hqn : q ∉ sinks2 := fun hc2 =>
              (List.nodup_cons.mp hnd).1 (final_check_sinks_subset hr q hc2)
            rcases isSink with _ | _
            · simp only [Bool.false_eq_true, if_false]
              constructor
              · intro hc2; exact absurd hc2 hqn
              · intro hc2
                rw [hc] at hc2
                cases hc2
            · simp only [if_true]
              simp [hc]
          · have hqx : q ≠ x := fun hc2 =>
              (List.nodup_cons.mp hnd).1 (hc2 ▸ hq)
            have hmem : q ∈ sinks2 ↔ check_transitions Q (entry_map e) q Sig = .ok true :=
              ih (List.Nodup.of_cons hnd) hr hq hlook
            rcases isSink with _ | _
            · simpa only [Bool.false_eq_true, if_false] using hmem
            · simp only [if_true]
              rw [List.mem_cons]
              simp only [hqx, false_or]
              exact hmem

theorem final_check_error_missing {Q Sig : List St} {tbl : Table} {q : St} :
    ∀ {pre : List St} (post : List St),
    (∀ p ∈ pre, ∃ e, lookupT tbl p = some e ∧
      ∃ b, check_transitions Q (entry_map e) p Sig = .ok b) →
    lookupT tbl q = none →
    δ_final_check Q Sig tbl (pre ++ q :: post) = .error (missing_state_err q) := by
  intro pre
  induction pre with
  | nil =>
    intro post _ hq
    unfold δ_final_check
    rw [List.nil_append]
    simp only [hq]
  | cons x xs ih =>
    intro post hpre hq
    obtain ⟨e, he, b, hb⟩ := hpre x (List.mem_cons_self _ _)
    have hrest := ih post (fun p hp => hpre p (List.mem_cons_of_mem _ hp)) hq
    rw [List.cons_append]
    unfold δ_final_check
    simp only [he, hb, hrest]

/-! ## Completion of the transition table -/

theorem validate_pairs_ok_iff {Q Sig : List St} {P : TMap} :
    validate_pairs Q Sig P = .ok () ↔ ∀ p ∈ P, p.1 ∈ Sig ∧ p.2 ∈ Q := by
  induction P with
  | nil => simp [validate_pairs]
  | cons p rest ih =>
    obtain ⟨k, v⟩ := p
    unfold validate_pairs
    constructor
    · intro h
      rcases hk : validate_char Sig k with e | u <;> rw [hk] at h <;> simp only at h
      · cases h
      · rcases hv : validate_state Q v with e | u <;> rw [hv] at h <;> simp only at h
        · cases h
        · intro p hp
          rcases List.mem_cons.mp hp with rfl | hp
          · exact ⟨validate_char_ok_iff.mp hk, validate_state_ok_iff.mp hv⟩
          · exact ih.mp h p hp
    · intro h
      obtain ⟨hk, hv⟩ := h (k, v) (List.mem_cons_self _ _)
      rw [validate_char_ok_iff.mpr hk, validate_state_ok_iff.mpr hv]
      exact ih.mpr (fun p hp => h p (List.mem_cons_of_mem _ hp))

theorem complete_state_transitions_ok_iff {Q Sig : List St} {P : TMap} {d : St} {m : TMap} :
    complete_state_transitions Q Sig P d = .ok m ↔
      d ∈ Q ∧ (∀ p ∈ P, p.1 ∈ Sig ∧ p.2 ∈ Q) ∧ m = P ++ fill_defaults Sig P d := by
  unfold complete_state_transitions
  constructor
  · intro h
    rcases hd : validate_state Q d with e | u <;> rw [hd] at h <;> simp only at h
    · cases h
    · rcases hp : validate_pairs Q Sig P with e | u <;> rw [hp] at h <;> simp only at h
      · cases h
      · cases h
        exact ⟨validate_state_ok_iff.mp hd, validate_pairs_ok_iff.mp hp, rfl⟩
  · rintro ⟨hd, hp, rfl⟩
    rw [validate_state_ok_iff.mpr hd, validate_pairs_ok_iff.mpr hp]

/-- The completed entry of a shorthand pair, looked up at any symbol of `Σ`:
the provided transition when the symbol was provided, the default otherwise. -/
theorem completed_lookup {Q Sig : List St} {P : TMap} {d : St} {m : TMap}
    (h : complete_state_transitions Q Sig P d = .ok m) :
    ∀ a ∈ Sig, lookupm m a = some ((lookupm P a).getD d) := by
  obtain ⟨_, _, rfl⟩ := complete_state_transitions_ok_iff.mp h
  intro a ha
  rw [lookupm_append]
  rcases hP : lookupm P a with _ | v
  · simp only
    have hkeys : a ∉ P.map Prod.fst := lookupm_eq_none_iff.mp hP
    unfold fill_defaults
    have hmem : a ∈ Sig.filter (fun a => ¬ (P.map Prod.fst).contains a) := by
      rw [List.mem_filter]
      refine ⟨ha, ?_⟩
      simpa using hkeys
    rw [lookupm_map_fun, if_pos hmem]
    rfl
  · simp only [Option.getD_some]

theorem spec_full_map_lookup {Sig : List St} {P : TMap} {d : St} {a : St} (ha : a ∈ Sig) :
    lookupm (spec_full_map Sig P d) a = some ((lookupm P a).getD d) := by
  unfold spec_full_map
  rw [lookupm_map_fun, if_pos ha]

theorem complete_entries_append_ok {Q Sig : List St} :
    ∀ {l1 l2 c1 c2 : Table}, complete_entries Q Sig l1 = .ok c1 →
    complete_entries Q Sig l2 = .ok c2 →
    complete_entries Q Sig (l1 ++ l2) = .ok (c1 ++ c2) := by
  intro l1
  induction l1 with
  | nil =>
    intro l2 c1 c2 h1 h2
    cases h1
    simpa using h2
  | cons p rest ih =>
    intro l2 c1 c2 h1 h2
    obtain ⟨q, t⟩ := p
    cases t with
    | full m =>
      unfold complete_entries at h1
      rcases hr : complete_entries Q Sig rest with e | r <;> rw [hr] at h1 <;> simp only at h1
      · cases h1
      · cases h1
        rw [List.cons_append]
        unfold complete_entries
        rw [ih hr h2]
        rfl
    | pair m d =>
      unfold complete_entries at h1
      rcases hm : complete_state_transitions Q Sig m d with e | m2 <;>
        rw [hm] at h1 <;> simp only at h1
      · cases h1
      · rcases hr : complete_entries Q Sig rest with e | r <;> rw [hr] at h1 <;> simp only at h1
        · cases h1
        · cases h1
          rw [List.cons_append]
          unfold complete_entries
          rw [hm]
          simp only []
          rw [ih hr h2]
          rfl

theorem complete_entries_append_ok_inv {Q Sig : List St} :
    ∀ {l1 l2 c : Table}, complete_entries Q Sig (l1 ++ l2) = .ok c →
    ∃ c1 c2, c = c1 ++ c2 ∧ complete_entries Q Sig l1 = .ok c1 ∧
      complete_entries Q Sig l2 = .ok c2 := by
  intro l1
  induction l1 with
  | nil =>
    intro l2 c h
    exact ⟨[], c, rfl, rfl, by simpa using h⟩
  | cons p rest ih =>
    intro l2 c h
    obtain ⟨q, t⟩ := p
    cases t with
    | full m =>
      rw [List.cons_append] at h
      unfold complete_entries at h
      rcases hr : complete_entries Q Sig (rest ++ l2) with e | r <;>
        rw [hr] at h <;> simp only at h
      · cases h
      · cases h
        obtain ⟨c1, c2, rfl, hc1, hc2⟩ := ih hr
        refine ⟨(q, TEntry.full m) :: c1, c2, rfl, ?_, hc2⟩
        unfold complete_entries
        rw [hc1]
    | pair m d =>
      rw [List.cons_append] at h
      unfold complete_entries at h
      rcases hm : complete_state_transitions Q Sig m d with e | m2 <;>
        rw [hm] at h <;> simp only at h
      · cases h
      · rcases hr : complete_entries Q Sig (rest ++ l2) with e | r <;>
          rw [hr] at h <;> simp only at h
        · cases h
        · cases h
          obtain ⟨c1, c2, rfl, hc1, hc2⟩ := ih hr
          refine ⟨(q, TEntry.full m2) :: c1, c2, rfl, ?_, hc2⟩
          unfold complete_entries
          rw [hm]
          simp only []
          rw [hc1]

theorem complete_entries_keys {Q Sig : List St} :
    ∀ {tbl t2 : Table}, complete_entries Q Sig tbl = .ok t2 →
    t2.map Prod.fst = tbl.map Prod.fst := by
  intro tbl
  induction tbl with
  | nil => intro t2 h; cases h; rfl
  | cons p rest ih =>
    intro t2 h
    obtain ⟨q, t⟩ := p
    cases t with
    | full m =>
      unfold complete_entries at h
      rcases hr : complete_entries Q Sig rest with e | r <;> rw [hr] at h <;> simp only at h
      · cases h
      · cases h
        simp only [List.map_cons, ih hr]
    | pair m d =>
      unfold complete_entries at h
      rcases hm : complete_state_transitions Q Sig m d with e | m2 <;>
        rw [hm] at h <;> simp only at h
      · cases h
      · rcases hr : complete_entries Q Sig rest with e | r <;> rw [hr] at h <;> simp only at h
        · cases h
        · cases h
          simp only [List.map_cons, ih hr]

/-- Decomposition of a successful completion of a table holding a shorthand
entry at a given position. -/
theorem complete_entries_shorthand_inv {Q Sig : List St} {pre post : Table}
    {q : St} {P : TMap} {d : St} {t2 : Table}
    (h : complete_entries Q Sig (pre ++ (q, TEntry.pair P d) :: post) = .ok t2) :
    ∃ cpre m cpost, t2 = cpre ++ (q, TEntry.full m) :: cpost ∧
      complete_entries Q Sig pre = .ok cpre ∧
      complete_state_transitions Q Sig P d = .ok m ∧
      complete_entries Q Sig post = .ok cpost := by
  obtain ⟨cpre, cmid, rfl, hpre, hmid⟩ := complete_entries_append_ok_inv h
  unfold complete_entries at hmid
  rcases hm : complete_state_transitions Q Sig P d with e | m <;>
    rw [hm] at hmid <;> simp only at hmid
  · cases hmid
  · rcases hpost : complete_entries Q Sig post with e | cpost <;>
      rw [hpost] at hmid <;> simp only at hmid
    · cases hmid
    · cases hmid
      exact ⟨cpre, m, cpost, rfl, hpre, rfl, rfl⟩

/-- Completion of a table holding a full entry at a given position, from
completions of the surrounding parts. -/
theorem complete_entries_full_intro {Q Sig : List St} {pre post : Table}
    {q : St} {m : TMap} {cpre cpost : Table}
    (hpre : complete_entries Q Sig pre = .ok cpre)
    (hpost : complete_entries Q Sig post = .ok cpost) :
    complete_entries Q Sig (pre ++ (q, TEntry.full m) :: post) =
      .ok (cpre ++ (q, TEntry.full m) :: cpost) := by
  refine complete_entries_append_ok hpre ?_
  unfold complete_entries
  rw [hpost]

theorem complete_δ_ok_iff {Q Sig : List St} {tbl t2 : Table} :
    complete_δ Q Sig tbl = .ok t2 ↔
      (∀ k ∈ tbl.map Prod.fst, k ∈ Q) ∧ complete_entries Q Sig tbl = .ok t2 := by
  unfold complete_δ
  constructor
  · intro h
    rcases hk : validate_states Q (tbl.map Prod.fst) with e | u <;>
      rw [hk] at h <;> simp only at h
    · cases h
    · exact ⟨validate_states_ok_iff.mp hk, h⟩
  · rintro ⟨hk, hc⟩
    rw [validate_states_ok_iff.mpr hk]
    exact hc

/-! ## Inversion of a successful construction -/

theorem make_ok_inv {Q Sig : List St} {tbl : Table} {q0 : St} {F : List St}
    {label : String} {M : DFSM} (h : make Q Sig tbl q0 F label = .ok M) :
    M.Q = dedupFirst Q ∧ M.Sig = dedupFirst Sig ∧
    complete_δ M.Q M.Sig tbl = .ok M.δ ∧
    M.q0 = q0 ∧ M.q0 ∈ M.Q ∧
    M.F = dedupFirst F ∧ (∀ f ∈ M.F, f ∈ M.Q) ∧
    M.label = label ∧
    δ_final_check M.Q M.Sig M.δ M.Q = .ok M.sink_nodes := by
  unfold make at h
  rcases hc : complete_δ (dedupFirst Q) (dedupFirst Sig) tbl with e | tbl2 <;>
    rw [hc] at h <;> simp only at h
  · cases h
  · rcases hq : validate_state (dedupFirst Q) q0 with e | u <;>
      rw [hq] at h <;> simp only at h
    · cases h
    · rcases hF : validate_states (dedupFirst Q) (dedupFirst F) with e | u <;>
        rw [hF] at h <;> simp only at h
      · cases h
      · rcases hs : δ_final_check (dedupFirst Q) (dedupFirst Sig) tbl2 (dedupFirst Q)
            with e | sinks <;> rw [hs] at h <;> simp only at h
        · cases h
        · cases h
          refine ⟨rfl, rfl, hc, rfl, validate_state_ok_iff.mp hq, rfl,
            validate_states_ok_iff.mp hF, rfl, hs⟩

/-- Totality of the completed table on a successfully constructed automaton:
every `δ(q, a)` is defined and lands in `Q`. -/
theorem make_ok_total {Q Sig : List St} {tbl : Table} {q0 : St} {F : List St}
    {label : String} {M : DFSM} (h : make Q Sig tbl q0 F label = .ok M) :
    ∀ q ∈ M.Q, ∀ a ∈ M.Sig, ∃ n, stepO M.δ q a = some n ∧ n ∈ M.Q := by
  obtain ⟨_, _, _, _, _, _, _, _, hfc⟩ := make_ok_inv h
  intro q hq a ha
  obtain ⟨e, he, b, hb⟩ := final_check_ok_entry hfc q hq
  obtain ⟨n, hn, hnQ⟩ := check_transitions_ok_total hb a ha
  exact ⟨n, by unfold stepO; rw [he]; exact hn, hnQ⟩

/-- Sink-set characterization on a successfully constructed automaton. -/
theorem make_ok_sink_iff {Q Sig : List St} {tbl : Table} {q0 : St} {F : List St}
    {label : String} {M : DFSM} (h : make Q Sig tbl q0 F label = .ok M) (q : St) :
    q ∈ M.sink_nodes ↔ q ∈ M.Q ∧ ∀ a ∈ M.Sig, stepO M.δ q a = some q := by
  obtain ⟨hQ, _, _, _, _, _, _, _, hfc⟩ := make_ok_inv h
  have hnd : M.Q.Nodup := hQ ▸ nodup_dedupFirst
  constructor
  · intro hs
    have hqQ : q ∈ M.Q := final_check_sinks_subset hfc q hs
    obtain ⟨e, he, b, hb⟩ := final_check_ok_entry hfc q hqQ
    have hiff := final_check_mem_sinks_iff hnd hfc hqQ he
    have htrue := hiff.mp hs
    refine ⟨hqQ, fun a ha => ?_⟩
    have := (check_transitions_ok_true_iff htrue).mp rfl a ha
    unfold stepO
    rw [he]
    exact this
  · rintro ⟨hqQ, hstep⟩
    obtain ⟨e, he, b, hb⟩ := final_check_ok_entry hfc q hqQ
    have hiff := final_check_mem_sinks_iff hnd hfc hqQ he
    have hall : ∀ a ∈ M.Sig, lookupm (entry_map e) a = some q := by
      intro a ha
      have := hstep a ha
      unfold stepO at this
      rw [he] at this
      exact this
    have hb_true : b = true := (check_transitions_ok_true_iff hb).mpr hall
    exact hiff.mpr (hb_true ▸ hb)

/-! ## The execution engine -/

theorem run_δ_closure {tbl : Table} {sinks Ql Sigl : List St}
    (htot : ∀ s ∈ Ql, ∀ c ∈ Sigl, ∃ n, stepO tbl s c = some n ∧ n ∈ Ql) :
    ∀ {input : List St} {s : St}, s ∈ Ql → (∀ c ∈ input, c ∈ Sigl) →
    ∃ s2, run_δ tbl sinks input s = .ok s2 ∧ s2 ∈ Ql := by
  intro input
  induction input with
  | nil => intro s hs _; exact ⟨s, rfl, hs⟩
  | cons c rest ih =>
    intro s hs hin
    by_cases hsink : s ∈ sinks
    · exact ⟨s, by unfold run_δ; rw [if_pos hsink], hs⟩
    · obtain ⟨n, hn, hnQ⟩ := htot s hs c (hin c (List.mem_cons_self _ _))
      obtain ⟨s2, hs2, hs2Q⟩ := ih hnQ (fun x hx => hin x (List.mem_cons_of_mem _ hx))
      refine ⟨s2, ?_, hs2Q⟩
      unfold run_δ
      rw [if_neg hsink, hn]
      exact hs2

theorem fold_δ_sink_fixed {tbl : Table} {Sigl : List St} {s : St}
    (hsink : ∀ a ∈ Sigl, stepO tbl s a = some s) :
    ∀ {input : List St}, (∀ c ∈ input, c ∈ Sigl) → fold_δ tbl input s = some s := by
  intro input
  induction input with
  | nil => intro _; rfl
  | cons c rest ih =>
    intro hin
    unfold fold_δ
    rw [hsink c (hin c (List.mem_cons_self _ _))]
    exact ih (fun x hx => hin x (List.mem_cons_of_mem _ hx))

/-- The scanning loop with the sink short-circuit agrees with the plain fold
of `δ` over the whole input, provided every recorded sink really loops on
every alphabet symbol. -/
theorem run_δ_eq_fold {tbl : Table} {sinks Sigl : List St}
    (hsinks : ∀ s ∈ sinks, ∀ a ∈ Sigl, stepO tbl s a = some s) :
    ∀ {input : List St} {s s2 : St}, (∀ c ∈ input, c ∈ Sigl) →
    run_δ tbl sinks input s = .ok s2 → fold_δ tbl input s = some s2 := by
  intro input
  induction input with
  | nil =>
    intro s s2 _ h
    cases h
    rfl
  | cons c rest ih =>
    intro s s2 hin h
    unfold run_δ at h
    by_cases hsink : s ∈ sinks
    · rw [if_pos hsink] at h
      cases h
      exact fold_δ_sink_fixed (hsinks s hsink) hin
    · rw [if_neg hsink] at h
      rcases hn : stepO tbl s c with _ | n <;> rw [hn] at h <;> simp only at h
      · cases h
      · unfold fold_δ
        rw [hn]
        exact ih (fun x hx => hin x (List.mem_cons_of_mem _ hx)) h

/-- On a valid input, `read` succeeds, its loop is `run_δ`, and the result is
a state of `Q`. -/
theorem read_ok_of_valid {Q Sig : List St} {tbl : Table} {q0 : St} {F : List St}
    {label : String} {M : DFSM} (h : make Q Sig tbl q0 F label = .ok M)
    {input : List St} (hin : ∀ c ∈ input, c ∈ M.Sig) :
    ∃ s, M.read input = .ok s ∧ s ∈ M.Q ∧
      run_δ M.δ M.sink_nodes input M.q0 = .ok s := by
  obtain ⟨_, _, _, _, hq0, _, _, _, _⟩ := make_ok_inv h
  obtain ⟨s, hs, hsQ⟩ := run_δ_closure (make_ok_total h) hq0 hin
  refine ⟨s, ?_, hsQ, hs⟩
  unfold DFSM.read
  rw [validate_input_ok_iff.mpr hin]
  exact hs

/-! ## Congruence of the final check under pointwise-equal tables -/

theorem final_check_congr {Q Sig : List St} {t1 t2 : Table}
    (hnone : ∀ x, lookupT t1 x = none ↔ lookupT t2 x = none)
    (hsome : ∀ x e1 e2, lookupT t1 x = some e1 → lookupT t2 x = some e2 →
      ∀ a ∈ Sig, lookupm (entry_map e1) a = lookupm (entry_map e2) a) :
    ∀ Qit : List St, δ_final_check Q Sig t1 Qit = δ_final_check Q Sig t2 Qit := by
  intro Qit
  induction Qit with
  | nil => rfl
  | cons x xs ih =>
    unfold δ_final_check
    rcases h1 : lookupT t1 x with _ | e1
    · rw [(hnone x).mp h1]
    · rcases h2 : lookupT t2 x with _ | e2
      · have hcontra := (hnone x).mpr h2
        rw [h1] at hcontra
        cases hcontra
      · simp only
        rw [check_transitions_congr (hsome x e1 e2 h1 h2), ih]

/-- Two tables differing only in the entry stored at one key have entries at
exactly the same keys. -/
theorem lookupT_mid_none {cpre cpost : Table} {q : St} {e1 e2 : TEntry} (x : St) :
    lookupT (cpre ++ (q, e1) :: cpost) x = none ↔
      lookupT (cpre ++ (q, e2) :: cpost) x = none := by
  rw [lookupT_eq_none_iff, lookupT_eq_none_iff]
  simp

/-- Simultaneous successful lookups into two tables differing only in the
entry stored at key `q` agree, except possibly at `q` itself where they
return the two stored entries. -/
theorem lookupT_mid_some {cpre cpost : Table} {q : St} {e1 e2 : TEntry}
    (x : St) (f1 f2 : TEntry) :
    lookupT (cpre ++ (q, e1) :: cpost) x = some f1 →
    lookupT (cpre ++ (q, e2) :: cpost) x = some f2 →
    f1 = f2 ∨ (f1 = e1 ∧ f2 = e2) := by
  rw [lookupT_append, lookupT_append]
  rcases hp : lookupT cpre x with _ | f
  · simp only
    unfold lookupT
    by_cases hq : q = x
    · rw [if_pos hq, if_pos hq]
      intro h1 h2
      cases h1
      cases h2
      exact Or.inr ⟨rfl, rfl⟩
    · rw [if_neg hq, if_neg hq]
      intro h1 h2
      rw [h1] at h2
      exact Or.inl ((Option.some.injEq _ _).mp h2)
  · simp only
    intro h1 h2
    rw [h1] at h2
    exact Or.inl ((Option.some.injEq _ _).mp h2)

/-! ## The claims -/

/-- C1: on every successfully constructed automaton, a state is in
`sink_nodes` iff it is a state of `Q` and every symbol of the deduplicated
alphabet maps it to itself under the completed table; in particular with an
empty alphabet every state is a sink. -/
theorem sink_nodes_spec (Q Sig : List St) (tbl : Table) (q0 : St) (F : List St)
    (label : String) (M : DFSM) (h : make Q Sig tbl q0 F label = .ok M) :
    (∀ q, q ∈ M.sink_nodes ↔ (q ∈ M.Q ∧ ∀ a ∈ M.Sig, stepO M.δ q a = some q))
    ∧ (M.Sig = [] → ∀ q ∈ M.Q, q ∈ M.sink_nodes) := by
  refine ⟨fun q => make_ok_sink_iff h q, fun hS q hq => ?_⟩
  refine (make_ok_sink_iff h q).mpr ⟨hq, ?_⟩
  rw [hS]
  intro a ha
  cases ha

theorem sink_nodes_spec_witness :
    "e" ∈ exM.sink_nodes ↔ ("e" ∈ exM.Q ∧ ∀ a ∈ exM.Sig, stepO exM.δ "e" a = some "e") :=
  (sink_nodes_spec exQ exS exTbl "q0" exF "" exM rfl).1 "e"

/-- C2: on every successfully constructed automaton the completed table is
total over `Q × Σ` with values in `Q`, and `read` on any input over `Σ`
returns a state of `Q`. -/
theorem delta_total_read_in_Q (Q Sig : List St) (tbl : Table) (q0 : St)
    (F : List St) (label : String) (M : DFSM)
    (h : make Q Sig tbl q0 F label = .ok M) :
    (∀ q ∈ M.Q, ∀ a ∈ M.Sig, ∃ n, stepO M.δ q a = some n ∧ n ∈ M.Q)
    ∧ ∀ input : List St, (∀ c ∈ input, c ∈ M.Sig) →
        ∃ s, M.read input = .ok s ∧ s ∈ M.Q := by
  refine ⟨make_ok_total h, fun input hin => ?_⟩
  obtain ⟨s, hr, hsQ, _⟩ := read_ok_of_valid h hin
  exact ⟨s, hr, hsQ⟩

theorem delta_total_read_in_Q_witness :
    ∃ s, exM.read ["0", "1"] = .ok s ∧ s ∈ exM.Q :=
  (delta_total_read_in_Q exQ exS exTbl "q0" exF "" exM rfl).2 ["0", "1"] (by decide)

/-- C4: `test` never propagates an error of `read`: on any input it returns
`false` when `read` fails, and accept-membership of the final state when
`read` succeeds — a total Boolean function. -/
theorem test_total_spec (Q Sig : List St) (tbl : Table) (q0 : St) (F : List St)
    (label : String) (M : DFSM) (h : make Q Sig tbl q0 F label = .ok M)
    (input : List St) :
    (∀ e, M.read input = .error e → M.test input = false)
    ∧ (∀ s, M.read input = .ok s → (M.test input = true ↔ s ∈ M.F)) := by
  constructor
  · intro e he
    unfold DFSM.test
    rw [he]
  · intro s hs
    unfold DFSM.test
    rw [hs]
    simp

theorem test_total_spec_witness :
    (∀ e, exM.read ["x"] = .error e → exM.test ["x"] = false)
    ∧ (∀ s, exM.read ["x"] = .ok s → (exM.test ["x"] = true ↔ s ∈ exM.F)) :=
  test_total_spec exQ exS exTbl "q0" exF "" exM rfl ["x"]

/-- C5: on a successfully constructed automaton with at least one sink state,
`read` (with its sink short-circuit) returns exactly the state the plain fold
of `δ` over the whole input computes from `q0`. -/
theorem read_early_exit_equiv (Q Sig : List St) (tbl : Table) (q0 : St)
    (F : List St) (label : String) (M : DFSM)
    (h : make Q Sig tbl q0 F label = .ok M) (hs : M.sink_nodes ≠ [])
    (input : List St) (hin : ∀ c ∈ input, c ∈ M.Sig) :
    ∃ s, M.read input = .ok s ∧ fold_δ M.δ input M.q0 = some s := by
  obtain ⟨s, hr, hsQ, hrun⟩ := read_ok_of_valid h hin
  refine ⟨s, hr, ?_⟩
  have hsinks : ∀ s2 ∈ M.sink_nodes, ∀ a ∈ M.Sig, stepO M.δ s2 a = some s2 :=
    fun s2 hs2 => ((make_ok_sink_iff h s2).mp hs2).2
  exact run_δ_eq_fold hsinks hin hrun

theorem read_early_exit_equiv_witness :
    ∃ s, exM.read ["0", "0"] = .ok s ∧ fold_δ exM.δ ["0", "0"] exM.q0 = some s :=
  read_early_exit_equiv exQ exS exTbl "q0" exF "" exM rfl (by decide)
    ["0", "0"] (by decide)

/-- C6 counterexample: the error thrown on an unknown input symbol carries
only the character, not its position — reading `"x0"` (offending position 0)
and `"0x"` (offending position 1) yields the identical error value, so the
error cannot identify the position. -/
theorem read_error_position_indistinct :
    exM.read ["x", "0"] = .error (symbol_err "x")
    ∧ exM.read ["0", "x"] = .error (symbol_err "x")
    ∧ exM.read ["x", "0"] = exM.read ["0", "x"] :=
  ⟨rfl, rfl, rfl⟩

/-- C6 (amended): on input containing a character outside `Σ`, `read` fails
with the unknown-symbol error naming the first offending character, and
returns no state. -/
theorem read_unknown_symbol_first (Q Sig : List St) (tbl : Table) (q0 : St)
    (F : List St) (label : String) (M : DFSM)
    (h : make Q Sig tbl q0 F label = .ok M) (pre post : List St) (c : St)
    (hpre : ∀ x ∈ pre, x ∈ M.Sig) (hc : c ∉ M.Sig) :
    M.read (pre ++ c :: post) = .error (symbol_err c) := by
  unfold DFSM.read
  rw [validate_input_error_first hpre hc]

theorem read_unknown_symbol_first_witness :
    exM.read (["0"] ++ "x" :: ["1"]) = .error (symbol_err "x") :=
  read_unknown_symbol_first exQ exS exTbl "q0" exF "" exM rfl ["0"] ["1"] "x"
    (by decide) (by decide)

/-- C7 counterexample: constructing from the shorthand table succeeds, but
the completed table — which the source builds by mutating the caller's `δ`
object in place (`state_transitions[a] = …`, `δ[q] = transitions`) and then
aliases as `this.δ` — differs from the table contents the caller supplied. -/
theorem construction_mutates_table :
    make exQ exS shTbl "q0" exF "" = .ok shM ∧ shM.δ ≠ shTbl :=
  ⟨rfl, by decide⟩

/-- C7 (amended): construction is all-or-nothing for the automaton — it
either succeeds, yielding the automaton whose `δ` is the completed table (the
caller's table object's post-construction contents), or fails with an error
and no automaton; the caller-supplied table, however, is completed in place
rather than left unchanged. -/
theorem make_all_or_nothing (Q Sig : List St) (tbl : Table) (q0 : St)
    (F : List St) (label : String) :
    (∃ M, make Q Sig tbl q0 F label = .ok M ∧
      complete_δ (dedupFirst Q) (dedupFirst Sig) tbl = .ok M.δ)
    ∨ (∃ e, make Q Sig tbl q0 F label = .error e) := by
  rcases h : make Q Sig tbl q0 F label with e | M
  · exact Or.inr ⟨e, rfl⟩
  · obtain ⟨hQ, hS, hcd, _⟩ := make_ok_inv h
    rw [hQ, hS] at hcd
    exact Or.inl ⟨M, rfl, hcd⟩

/-- C8: when every provided table key is valid, `q0` and `F` check out, and
every state before `q` in `Q`'s normalized order has a (checkable) entry but
`q` has none in the raw table, construction fails with the missing-entry
error naming `q` — the first entry-less state in `Q`'s normalized order, not
in the raw table's insertion order. -/
theorem missing_entry_first_in_Q (Q Sig : List St) (tbl : Table) (q0 : St)
    (F : List St) (label : String) (tbl2 : Table) (q : St) (pre post : List St)
    (hcd : complete_δ (dedupFirst Q) (dedupFirst Sig) tbl = .ok tbl2)
    (hq0 : q0 ∈ dedupFirst Q)
    (hF : ∀ f ∈ dedupFirst F, f ∈ dedupFirst Q)
    (hsplit : dedupFirst Q = pre ++ q :: post)
    (hpre : ∀ p ∈ pre, ∃ e2, lookupT tbl2 p = some e2 ∧
      ∃ b, check_transitions (dedupFirst Q) (entry_map e2) p (dedupFirst Sig) = .ok b)
    (hq : lookupT tbl q = none) :
    make Q Sig tbl q0 F label = .error (missing_state_err q) := by
  have hce := (complete_δ_ok_iff.mp hcd).2
  have hkeys := complete_entries_keys hce
  have hq2 : lookupT tbl2 q = none := by
    rw [lookupT_eq_none_iff, hkeys]
    exact lookupT_eq_none_iff.mp hq
  have hfc := final_check_error_missing post hpre hq2
  rw [← hsplit] at hfc
  unfold make
  rw [hcd]
  simp only
  rw [validate_state_ok_iff.mpr hq0]
  simp only
  rw [validate_states_ok_iff.mpr hF]
  simp only
  rw [hfc]

theorem missing_entry_first_in_Q_witness :
    make ["s", "t", "u"] ["a"] mTbl "s" [] "" = .error (missing_state_err "t") :=
  missing_entry_first_in_Q ["s", "t", "u"] ["a"] mTbl "s" [] "" mTbl "t"
    ["s"] ["u"] rfl (by decide) (by decide) rfl
    (by
      intro p hp
      have hps : p = "s" := by simpa using hp
      subst hps
      exact ⟨.full [("a", "s")], rfl, true, rfl⟩)
    rfl

/-- C9: construction with duplicate state/alphabet/accept lists produces
exactly the same result as construction from the first-occurrence
deduplicated lists; in particular the automata (hence `read` and `test` on
every input) are identical. -/
theorem dedup_construction_eq (Q Sig : List St) (tbl : Table) (q0 : St)
    (F : List St) (label : String) :
    make Q Sig tbl q0 F label =
      make (dedupFirst Q) (dedupFirst Sig) tbl q0 (dedupFirst F) label
    ∧ ∀ M M2 : DFSM, make Q Sig tbl q0 F label = .ok M →
        make (dedupFirst Q) (dedupFirst Sig) tbl q0 (dedupFirst F) label = .ok M2 →
        ∀ input : List St, M.read input = M2.read input ∧ M.test input = M2.test input := by
  have heq : make Q Sig tbl q0 F label =
      make (dedupFirst Q) (dedupFirst Sig) tbl q0 (dedupFirst F) label := by
    unfold make
    rw [dedupFirst_idem, dedupFirst_idem, dedupFirst_idem]
  refine ⟨heq, fun M M2 h1 h2 => ?_⟩
  rw [heq, h2] at h1
  cases h1
  exact fun input => ⟨rfl, rfl⟩

theorem dedup_construction_eq_witness :
    make (exQ ++ exQ) (exS ++ exS) exTbl "q0" (exF ++ exF) "" =
      make (dedupFirst (exQ ++ exQ)) (dedupFirst (exS ++ exS)) exTbl "q0"
        (dedupFirst (exF ++ exF)) "" :=
  (dedup_construction_eq (exQ ++ exQ) (exS ++ exS) exTbl "q0" (exF ++ exF) "").1

/-- C10: a raw-table key that is not a member of the normalized `Q` makes
construction fail with the state-not-in-Q error naming that key, regardless
of the other entries. -/
theorem stray_table_key_fails (Q Sig : List St) (tbl : Table) (q0 : St)
    (F : List St) (label : String) (k : St) (e : TEntry) (pre post : Table)
    (hsplit : tbl = pre ++ (k, e) :: post)
    (hpre : ∀ p ∈ pre.map Prod.fst, p ∈ dedupFirst Q)
    (hk : k ∉ dedupFirst Q) :
    make Q Sig tbl q0 F label = .error (state_err k) := by
  subst hsplit
  have hkeys : (pre ++ (k, e) :: post).map Prod.fst =
      pre.map Prod.fst ++ k :: post.map Prod.fst := by simp
  unfold make complete_δ
  rw [hkeys, validate_states_error_first hpre hk]

theorem stray_table_key_fails_witness :
    make ["s"] ["a"] kTbl "s" [] "" = .error (state_err "b") :=
  stray_table_key_fails ["s"] ["a"] kTbl "s" [] "" "b" (.full [("a", "s")])
    [("s", .full [("a", "s")])] [] rfl (by decide) (by decide)

/-- C3: a state's shorthand entry `(P, d)` is completed into exactly the map
that (over all of `Σ`) agrees with `P` on `P`'s keys and sends every other
symbol of `Σ` to `d`, and constructing with the shorthand entry or with that
fully-enumerated map yields automata identical in every field, with completed
tables equal as maps over `Q × Σ`. -/
theorem shorthand_full_equiv (Q Sig : List St) (pre post : Table) (q : St)
    (P : TMap) (d : St) (q0 : St) (F : List St) (label : String) (M : DFSM)
    (h : make Q Sig (pre ++ (q, TEntry.pair P d) :: post) q0 F label = .ok M) :
    (∃ m, complete_state_transitions M.Q M.Sig P d = .ok m ∧
      ∀ a ∈ M.Sig, lookupm m a = lookupm (spec_full_map M.Sig P d) a)
    ∧ ∃ M2, make Q Sig (pre ++ (q, TEntry.full (spec_full_map M.Sig P d)) :: post)
        q0 F label = .ok M2
      ∧ M2.Q = M.Q ∧ M2.Sig = M.Sig ∧ M2.q0 = M.q0 ∧ M2.F = M.F
      ∧ M2.sink_nodes = M.sink_nodes
      ∧ ∀ q2 ∈ M.Q, ∀ a ∈ M.Sig, stepO M2.δ q2 a = stepO M.δ q2 a := by
  obtain ⟨hQ, hS, hcd, hq0, hq0m, hF, hFm, hlbl, hfc⟩ := make_ok_inv h
  obtain ⟨hkeys, hce⟩ := complete_δ_ok_iff.mp hcd
  obtain ⟨cpre, Pm, cpost, hδ, hcpre, hcst, hcpost⟩ := complete_entries_shorthand_inv hce
  have hmapeq : ∀ a ∈ M.Sig, lookupm Pm a = lookupm (spec_full_map M.Sig P d) a := by
    intro a ha
    rw [completed_lookup hcst a ha, spec_full_map_lookup ha]
  refine ⟨⟨Pm, hcst, hmapeq⟩, ?_⟩
  have hce2 : complete_entries M.Q M.Sig
      (pre ++ (q, TEntry.full (spec_full_map M.Sig P d)) :: post) =
      .ok (cpre ++ (q, TEntry.full (spec_full_map M.Sig P d)) :: cpost) :=
    complete_entries_full_intro hcpre hcpost
  have hkeys2 : ∀ k ∈ (pre ++ (q, TEntry.full (spec_full_map M.Sig P d)) :: post).map
      Prod.fst, k ∈ M.Q := by
    intro k hk
    apply hkeys
    simpa using hk
  have hcd2 : complete_δ M.Q M.Sig
      (pre ++ (q, TEntry.full (spec_full_map M.Sig P d)) :: post) =
      .ok (cpre ++ (q, TEntry.full (spec_full_map M.Sig P d)) :: cpost) :=
    complete_δ_ok_iff.mpr ⟨hkeys2, hce2⟩
  have hnone : ∀ x, lookupT (cpre ++ (q, TEntry.full Pm) :: cpost) x = none ↔
      lookupT (cpre ++ (q, TEntry.full (spec_full_map M.Sig P d)) :: cpost) x = none :=
    fun x => lookupT_mid_none x
  have hsome : ∀ x e1 e2,
      lookupT (cpre ++ (q, TEntry.full Pm) :: cpost) x = some e1 →
      lookupT (cpre ++ (q, TEntry.full (spec_full_map M.Sig P d)) :: cpost) x = some e2 →
      ∀ a ∈ M.Sig, lookupm (entry_map e1) a = lookupm (entry_map e2) a := by
    intro x e1 e2 h1 h2 a ha
    rcases lookupT_mid_some x e1 e2 h1 h2 with heq | ⟨he1, he2⟩
    · rw [heq]
    · subst he1
      subst he2
      exact hmapeq a ha
  have hfc1 : δ_final_check M.Q M.Sig (cpre ++ (q, TEntry.full Pm) :: cpost) M.Q =
      .ok M.sink_nodes := by
    rw [← hδ]
    exact hfc
  have hfc2 : δ_final_check M.Q M.Sig
      (cpre ++ (q, TEntry.full (spec_full_map M.Sig P d)) :: cpost) M.Q =
      .ok M.sink_nodes :=
    ((final_check_congr hnone hsome M.Q).symm).trans hfc1
  have hq0Q : q0 ∈ M.Q := by
    rw [← hq0]
    exact hq0m
  have hFQ : ∀ f ∈ dedupFirst F, f ∈ M.Q := by
    rw [← hF]
    exact hFm
  have hmk : make Q Sig (pre ++ (q, TEntry.full (spec_full_map M.Sig P d)) :: post)
      q0 F label =
      .ok ⟨M.Q, M.Sig, cpre ++ (q, TEntry.full (spec_full_map M.Sig P d)) :: cpost,
        q0, dedupFirst F, M.sink_nodes, label⟩ := by
    unfold make
    rw [← hQ, ← hS]
    rw [hcd2]
    simp only
    rw [validate_state_ok_iff.mpr hq0Q]
    simp only
    rw [validate_states_ok_iff.mpr hFQ]
    simp only
    rw [hfc2]
  refine ⟨_, hmk, rfl, rfl, hq0.symm, hF.symm, rfl, ?_⟩
  intro q2 hq2 a ha
  rw [hδ]
  unfold stepO
  rcases h2 : lookupT (cpre ++ (q, TEntry.full (spec_full_map M.Sig P d)) :: cpost) q2
      with _ | f2
  · rw [(hnone q2).mpr h2]
  · rcases h1 : lookupT (cpre ++ (q, TEntry.full Pm) :: cpost) q2 with _ | f1
    · have hcontra := (hnone q2).mp h1
      rw [h2] at hcontra
      cases hcontra
    · simp only
      exact (hsome q2 f1 f2 h1 h2 a ha).symm

theorem shorthand_full_equiv_witness :
    (∃ m, complete_state_transitions shM.Q shM.Sig [("1", "q0")] "e" = .ok m ∧
      ∀ a ∈ shM.Sig, lookupm m a = lookupm (spec_full_map shM.Sig [("1", "q0")] "e") a)
    ∧ ∃ M2, make exQ exS
        ([("q0", TEntry.pair [("0", "q1")] "e")] ++
          ("q1", TEntry.full (spec_full_map shM.Sig [("1", "q0")] "e")) ::
          [("e", TEntry.pair [] "e")]) "q0" exF "" = .ok M2
      ∧ M2.Q = shM.Q ∧ M2.Sig = shM.Sig ∧ M2.q0 = shM.q0 ∧ M2.F = shM.F
      ∧ M2.sink_nodes = shM.sink_nodes
      ∧ ∀ q2 ∈ shM.Q, ∀ a ∈ shM.Sig, stepO M2.δ q2 a = stepO shM.δ q2 a :=
  shorthand_full_equiv exQ exS [("q0", .pair [("0", "q1")] "e")]
    [("e", .pair [] "e")] "q1" [("1", "q0")] "e" "q0" exF "" shM rfl

end DFSMjs
